import Mathlib

/-!
Verification development for the symbolic-regression expression pipeline
of the `symbolic` repository.

Strings are modelled as `List Char`.  Python's `str.replace` is modelled
by `pyReplace`, and the string-processing functions of
`src/symbolic/io/expression.py` (`julia_to_latex`'s parameter and
placeholder substitution stages, `get_params`' filter),
`src/symbolic/models/__model__.py` (`replace_variables`),
`src/symbolic/regression/submodel.py` (`create_tes`) and
`src/scripts/temp2.py` (`round_sf`) are embedded as executable
definitions below.  The dependency resolver (`topo_order`), whose
implementation module `symbolic/regression/expression.py` is not part of
the source tree, is modelled from the specification.

Definitions come first, then the theorems about them.
-/

set_option maxHeartbeats 1000000

/-! ### Characters and digits -/

/-- The ten decimal digit characters, in value order. -/
def digitList : List Char := ['0', '1', '2', '3', '4', '5', '6', '7', '8', '9']

/-- `isDig c` holds exactly for the characters `'0'`-`'9'`
    (the character class `\d` of the renaming regex, and the digits of
    solver placeholder tokens). -/
def isDig (c : Char) : Bool := digitList.contains c

/-- The digit character of a value `0`-`9`. -/
def digitChar (n : Nat) : Char := digitList.getD n '0'

/-- The numeric value of a digit character. -/
def dVal (c : Char) : Nat := digitList.findIdx (fun x => x == c)

/-- Decimal value of a digit string, as Python's `int` reads it. -/
def digitsToNat (ds : List Char) : Nat := ds.foldl (fun a c => 10 * a + dVal c) 0

/-- Decimal digit characters of `n`, with explicit fuel (first argument). -/
def natDigitsF : Nat → Nat → List Char
  | 0, _ => []
  | f + 1, n =>
    if n < 10 then [digitChar n]
    else natDigitsF f (n / 10) ++ [digitChar (n % 10)]

/-- Decimal digit characters of a natural number, as Python's `str`
    renders a non-negative integer. -/
def natDigits (n : Nat) : List Char := natDigitsF (n + 1) n

/-! ### Python `str.replace` -/

/-- Scanner for Python's `s.replace(pat, rep)`: processes `s` left to
    right; the counter records characters of an earlier match that are
    still to be skipped. -/
def pyR (pat rep : List Char) : List Char → Nat → List Char
  | [], _ => []
  | _ :: s, k + 1 => pyR pat rep s k
  | c :: s, 0 =>
    if pat.isPrefixOf (c :: s) then rep ++ pyR pat rep s (pat.length - 1)
    else c :: pyR pat rep s 0

/-- Python's `s.replace(pat, rep)`: replaces every non-overlapping
    occurrence of `pat` in `s`, scanning left to right.  (Python's
    behaviour for an empty pattern is never exercised by the code under
    study; we let it return `s`.) -/
def pyReplace (s pat rep : List Char) : List Char :=
  if pat.isEmpty then s else pyR pat rep s 0

/-- Whether `pat` occurs as a contiguous substring of `s`
    (Python's `pat in s`). -/
def occursB (pat : List Char) : List Char → Bool
  | [] => pat.isEmpty
  | c :: s => pat.isPrefixOf (c :: s) || occursB pat s

/-! ### The substitution loops of `julia_to_latex`
    (`src/symbolic/io/expression.py`, lines 61-72) -/

/-- The parameter-inlining loop of `julia_to_latex`:
    `for param_name, param_value in zip(...): expression =
    expression.replace(str(param_name), str(param_value))`,
    with the (name, rendered value) pairs taken as given. -/
def substituteParams (e : List Char) : List (List Char × List Char) → List Char
  | [] => e
  | (n, v) :: rest => substituteParams (pyReplace e n v) rest

/-- The same loop fed by `zip(param_names, param_values)` exactly as in
    the source: Python's `zip` truncates to the shorter list. -/
def substituteParamsZip (e : List Char) (names values : List (List Char)) : List Char :=
  substituteParams e (names.zip values)

/-- The placeholder token `"#" + str(i)`. -/
def phTok (i : Nat) : List Char := '#' :: natDigits i

/-- The placeholder-replacement loop of `julia_to_latex`:
    `for placeholder, placeholdee in zip(placeholders, placeholdees):
    julia_expression = julia_expression.replace(placeholder, placeholdee)`,
    processing `#i, #(i+1), ...` in order. -/
def substPlaceholdersAux : List Char → Nat → List (List Char) → List Char
  | e, _, [] => e
  | e, i, pd :: rest => substPlaceholdersAux (pyReplace e (phTok i) pd) (i + 1) rest

/-- Placeholder substitution over a list of placeholdees, starting with
    `#1` as in the source (`placeholders = [f"#{i+1}" ...]`). -/
def substPlaceholders (e : List Char) (pds : List (List Char)) : List Char :=
  substPlaceholdersAux e 1 pds

/-- The input variable name `"x" + str(i)`. -/
def inputName (i : Nat) : List Char := 'x' :: natDigits i

/-- Parenthesisation of a substituted submodel expression
    (`expression_list.append(f"({expression})")`). -/
def parenWrap (e : List Char) : List Char := '(' :: (e ++ [')'])

/-- The concatenated placeholdee list of `julia_to_latex`:
    `inputs + expression_list`, with `inputs = [f"x{i+1}" ...]`. -/
def pdsOf (num_inputs : Nat) (expression_list : List (List Char)) : List (List Char) :=
  (List.range num_inputs).map (fun i => inputName (i + 1)) ++ expression_list.map parenWrap

/-- The whole placeholder stage of `julia_to_latex` (lines 66-72),
    taking the already-substituted submodel expressions as input. -/
def placeholderStage (e : List Char) (num_inputs : Nat)
    (expression_list : List (List Char)) : List Char :=
  substPlaceholders e (pdsOf num_inputs expression_list)

/-! ### Reference semantics for placeholder substitution

The specification describes placeholder substitution as a simultaneous
map: each token `#i` denotes the `i`-th entry of the concatenated list.
`intendedSubst` renders that reading executable: it scans the
expression once and replaces every placeholder token (a `#` followed by
a maximal run of digits) whose value is in range by the corresponding
entry, leaving everything else unchanged. -/

/-- One-pass simultaneous placeholder substitution (the specification's
    reading).  The counter skips characters of a consumed token. -/
def intendedS (pds : List (List Char)) : List Char → Nat → List Char
  | [], _ => []
  | _ :: s, k + 1 => intendedS pds s k
  | c :: s, 0 =>
    if c = '#' then
      if 1 ≤ digitsToNat (s.takeWhile isDig) ∧
          digitsToNat (s.takeWhile isDig) ≤ pds.length ∧ s.takeWhile isDig ≠ [] then
        pds.getD (digitsToNat (s.takeWhile isDig) - 1) [] ++
          intendedS pds s (s.takeWhile isDig).length
      else c :: intendedS pds s 0
    else c :: intendedS pds s 0

/-- Simultaneous placeholder substitution, entry point. -/
def intendedSubst (pds : List (List Char)) (e : List Char) : List Char :=
  intendedS pds e 0

/-- `tokensOk e`: every placeholder token of `e` consists of a single
    digit (no `#` is followed by two or more digits).  The counter skips
    characters already examined. -/
def tokensOkS : List Char → Nat → Bool
  | [], _ => true
  | _ :: s, k + 1 => tokensOkS s k
  | c :: s, 0 =>
    if c = '#' then
      match s with
      | [] => true
      | d :: s2 =>
        if isDig d then
          match s2 with
          | [] => true
          | e2 :: _ => if isDig e2 then false else tokensOkS s 1
        else tokensOkS s 0
    else tokensOkS s 0

/-- Every placeholder token of `e` is a single digit. -/
def tokensOk (e : List Char) : Bool := tokensOkS e 0

/-- `tokensInRange k e`: every placeholder token of `e` (a `#` followed
    by a non-empty maximal digit run) has a value between `1` and `k`,
    i.e. the expression only uses placeholders that denote entries of a
    `k`-element concatenated list. -/
def tokensInRangeS (k : Nat) : List Char → Nat → Bool
  | [], _ => true
  | _ :: s, j + 1 => tokensInRangeS k s j
  | c :: s, 0 =>
    if c = '#' then
      if (s.takeWhile isDig).isEmpty then tokensInRangeS k s 0
      else
        decide (1 ≤ digitsToNat (s.takeWhile isDig) ∧ digitsToNat (s.takeWhile isDig) ≤ k) &&
          tokensInRangeS k s (s.takeWhile isDig).length
    else tokensInRangeS k s 0

/-- Every placeholder token of `e` has a value between `1` and `k`. -/
def tokensInRange (k : Nat) (e : List Char) : Bool := tokensInRangeS k e 0

/-! ### Generic machinery: sequential vs. simultaneous replacement

The code replaces the two-character tokens `#1, ..., #9` sequentially;
`seqS` and `simulS` capture sequential and simultaneous replacement for
an association list of (digit character, replacement) pairs. -/

/-- Sequential replacement of the tokens `['#', c]`, in list order. -/
def seqS : List Char → List (Char × List Char) → List Char
  | e, [] => e
  | e, (c, rep) :: m => seqS (pyReplace e ['#', c] rep) m

/-- Simultaneous replacement of the tokens `['#', c]` in a single scan. -/
def simulSS (m : List (Char × List Char)) : List Char → Nat → List Char
  | [], _ => []
  | _ :: s, k + 1 => simulSS m s k
  | c :: s, 0 =>
    if c = '#' then
      match s with
      | [] => [c]
      | d :: _ =>
        match List.lookup d m with
        | some rep => rep ++ simulSS m s 1
        | none => c :: simulSS m s 0
    else c :: simulSS m s 0

/-- Simultaneous token replacement, entry point. -/
def simulS (m : List (Char × List Char)) (e : List Char) : List Char :=
  simulSS m e 0

/-- The association list mapping the digit of `#i` to the `i`-th
    placeholdee, for `i = start, start+1, ...`. -/
def digitMapFrom : Nat → List (List Char) → List (Char × List Char)
  | _, [] => []
  | i, pd :: rest => (digitChar i, pd) :: digitMapFrom (i + 1) rest

/-- Sanity of a replacement map: no key is `'#'`, and every replacement
    is non-empty, contains no `'#'`, and does not start with a key.
    All maps built by `julia_to_latex` (inputs `x1, x2, ...` and
    parenthesised sub-expressions) satisfy this. -/
def saneMap (M : List (Char × List Char)) : Prop :=
  ∀ p ∈ M, p.1 ≠ '#' ∧ p.2 ≠ [] ∧ (∀ x ∈ p.2, x ≠ '#') ∧
    ∀ q ∈ M, p.2.head? ≠ some q.1

/-! ### Significant-figure rounding (`round_sf`, `src/scripts/temp2.py`)

Python's `round_sf` formats a float with `"{:.%dg}" % sf` and parses the
result back.  We model the numeric values exactly, as decimal numbers
`man * 10 ^ exp` with integer significand and exponent; `%g` rounding of
such a value to `sf` significant digits is round-half-even on the
decimal significand, which the model implements with integer
arithmetic. -/

/-- An exact decimal number `man * 10 ^ exp`. -/
structure DecNum where
  man : Int
  exp : Int
deriving DecidableEq, Repr

/-- The number of decimal digits of `n`. -/
def numDigits (n : Nat) : Nat := (natDigits n).length

/-- Round-half-even selection between `q` and `q + 1` given the
    discarded remainder `r` and the halfway point `half`. -/
def roundHalfEvenN (q r half : Nat) : Nat :=
  if r < half then q
  else if half < r then q + 1
  else if q % 2 = 0 then q else q + 1

/-- Cut an integer significand to `sf` significant decimal digits,
    returning the new significand and the number of digits removed. -/
def round_sf_man (m : Int) (sf : Nat) : Int × Nat :=
  let a := m.natAbs
  if numDigits a ≤ sf ∨ sf = 0 then (m, 0)
  else
    let cut := numDigits a - sf
    let divisor := 10 ^ cut
    let q := roundHalfEvenN (a / divisor) (a % divisor) (divisor / 2)
    (if m < 0 then -(q : Int) else (q : Int), cut)

/-- `round_sf(value, sf)` for a single number: round to `sf` significant
    decimal digits (round-half-even, as `"{:.5g}"` does). -/
def round_sf (d : DecNum) (sf : Nat) : DecNum :=
  ⟨(round_sf_man d.man sf).1, d.exp + ((round_sf_man d.man sf).2 : Int)⟩

/-- `round_sf` on a list: the `isinstance(value, list)` branch of the
    source applies the scalar rounding to every element. -/
def round_sf_list (l : List DecNum) (sf : Nat) : List DecNum :=
  l.map (fun d => round_sf d sf)

/-! ### `replace_variables` (`src/symbolic/models/__model__.py`,
    lines 146-161)

`re.sub(r'x_\x7b(\d+)\x7d', replacer, latex_string)` replaces every
match of `x_` + `{digits}` using `replacer`, which substitutes
`new_variables[int(matched digits)]` when the index is in range and
returns the match unchanged otherwise. -/

/-- Try to match `_{digits}` at the start of `s` (the part of the regex
    after the leading `x`): returns the digit run and the total number
    of characters consumed from `s`. -/
def tokMatch : List Char → Option (List Char × Nat)
  | a :: b :: s2 =>
    if a = '_' ∧ b = '\x7b' then
      if (s2.takeWhile isDig).isEmpty then none
      else if (s2.drop (s2.takeWhile isDig).length).head? = some '\x7d' then
        some (s2.takeWhile isDig, (s2.takeWhile isDig).length + 3)
      else none
    else none
  | _ => none

/-- The matched text `x_{ds}` itself (regex `group(0)`). -/
def varTok (ds : List Char) : List Char := 'x' :: '_' :: '\x7b' :: (ds ++ ['\x7d'])

/-- The `re.sub` scan of `replace_variables`: left-to-right,
    non-overlapping; on a match at index `i`, emits `new_variables[i]`
    when `0 ≤ i < len(new_variables)` and the match itself otherwise.
    The counter skips characters of a consumed match. -/
def rvS (vars : List (List Char)) : List Char → Nat → List Char
  | [], _ => []
  | _ :: s, k + 1 => rvS vars s k
  | c :: s, 0 =>
    if c = 'x' then
      match tokMatch s with
      | some (ds, skip) =>
        (if digitsToNat ds < vars.length then vars.getD (digitsToNat ds) []
         else varTok ds) ++ rvS vars s skip
      | none => c :: rvS vars s 0
    else c :: rvS vars s 0

/-- `replace_variables(latex_string, new_variables)`. -/
def replace_variables (latex_string : List Char) (new_variables : List (List Char)) : List Char :=
  rvS new_variables latex_string 0

/-! ### `get_params` (`src/symbolic/io/expression.py`, lines 14-27)

`sympify` and `free_symbols` belong to the external sympy library; the
free-symbol set of the parsed expression is therefore supplied as the
argument.  The code's own contribution is the filter
`[str(v) for v in variables if not str(v).startswith("x")]`. -/

/-- The filter of `get_params`: keep exactly the free symbols whose
    name does not start with `"x"`. -/
def get_params (free_symbols : List (List Char)) : List (List Char) :=
  free_symbols.filter (fun s => !(['x'].isPrefixOf s))

/-! ### The expression extraction of `julia_to_latex`
    (`src/symbolic/io/expression.py`, lines 43-70)

`julia_clean = julia.replace(" ", "")`, `julia_list = julia_clean.split(";")`,
`julia_expression = julia_list[0][2:]`. -/

/-- `julia.replace(" ", "")`. -/
def removeSpaces (e : List Char) : List Char := e.filter (fun c => c != ' ')

/-- The combined-expression extraction: first semicolon-separated
    statement of the space-stripped input, minus its first two
    characters. -/
def extractExpression (julia : List Char) : List Char :=
  ((removeSpaces julia).takeWhile (fun c => c != ';')).drop 2

/-! ### The dependency resolver (`topo_order`)

The module `symbolic/regression/expression.py` that implements the
resolver is not in the source tree (only its callers are); the
definitions of this section are modelled from the specification. -/

/-- Result of dependency resolution: an evaluation order, or the names
    remaining when no progress is possible. -/
inductive TopoResult where
  | ok (order : List String)
  | error (members : List String)
deriving DecidableEq, Repr

/-- Modelled from the spec: an assignment is removable when none of its
    referenced names is still an unresolved assigned name; references to
    never-assigned names are leaves (external inputs), not errors. -/
def removableB (names : List String) (deps : List String) : Bool :=
  deps.all (fun r => !(names.contains r))

/-- Modelled from the spec: Kahn-style elimination rounds.  Each round
    removes every assignment whose references are resolved; if a
    non-empty remainder admits no removal, resolution fails with the
    remaining names (the cycle members and everything depending on
    them). -/
def kahnAux : Nat → List (String × List String) → List String → TopoResult
  | 0, remaining, _ => .error (remaining.map Prod.fst)
  | fuel + 1, remaining, acc =>
    if remaining.isEmpty then .ok acc
    else if (remaining.filter (fun e => removableB (remaining.map Prod.fst) e.2)).isEmpty then
      .error (remaining.map Prod.fst)
    else
      kahnAux fuel
        (remaining.filter (fun e => !(removableB (remaining.map Prod.fst) e.2)))
        (acc ++ (remaining.filter (fun e => removableB (remaining.map Prod.fst) e.2)).map Prod.fst)

/-- Modelled from the spec: `topo_order(symbol_table)` returns the
    evaluation order of the assignments, or fails with a
    `CyclicDependencyError` carrying the unresolvable names. -/
def topo_order (table : List (String × List String)) : TopoResult :=
  kahnAux (table.length + 1) table []

/-- An identifier character (letter, digit or underscore). -/
def identChar (c : Char) : Bool := c.isAlphanum || c = '_'

/-- Modelled from the spec: the names referenced by an expression's
    right-hand side are its maximal identifier runs that start with a
    letter (numeric literals are not references). -/
def refsS : List Char → Nat → List String
  | [], _ => []
  | _ :: s, k + 1 => refsS s k
  | c :: s, 0 =>
    if c.isAlpha then
      String.mk (c :: s.takeWhile identChar) :: refsS s (s.takeWhile identChar).length
    else refsS s 0

/-- The referenced names of an expression string. -/
def refsOf (e : List Char) : List String := refsS e 0

/-- The symbol table of the spec's cyclic template `"a = b + 1; b = a * 2"`. -/
def cycleTable : List (String × List String) :=
  [("a", refsOf (("b + 1").toList)), ("b", refsOf (("a * 2").toList))]

/-! ### `create_tes` (`src/symbolic/regression/submodel.py`)

The `get_params` call inside `create_tes` goes through sympy; it is
supplied as the function argument `gp`. -/

/-- The result type of `create_tes` (the fields of pysr's
    `TemplateExpressionSpec` that the code fills in). -/
structure TemplateExpressionSpec where
  expressions : List (List Char)
  variable_names : List (List Char)
  parameters : List (List Char × Nat)
  combine : List Char
deriving DecidableEq, Repr

/-- Python's `sep.join(parts)`. -/
def joinSep (sep : List Char) : List (List Char) → List Char
  | [] => []
  | [x] => x
  | x :: y :: rest => x ++ sep ++ joinSep sep (y :: rest)

/-- The parameter-group name `"p" + str(i)`. -/
def pName (i : Nat) : List Char := 'p' :: natDigits i

/-- The intermediate-output name `"y" + str(i)`. -/
def yName (i : Nat) : List Char := 'y' :: natDigits i

/-- The 1-indexed parameter reference `f"p{i}[{j}]"`. -/
def pRef (i j : Nat) : List Char := pName i ++ '[' :: (natDigits j ++ [']'])

/-- The `parameter_def` line of submodel `i`:
    `", ".join(parameters) + " = " + ", ".join([f"p{i+1}[{j+1}]" ...])`. -/
def paramDefOf (gp : List Char → List (List Char)) (i : Nat) (sm : List Char) : List Char :=
  joinSep ((", ").toList) (gp sm) ++ (" = ").toList ++
    joinSep ((", ").toList) ((List.range (gp sm).length).map (fun j => pRef (i + 1) (j + 1)))

/-- The `submodel_def` block of submodel `i`:
    `f"{parameter_def}\n{expression_def}\n"` with
    `expression_def = f"y{i+1} = {submodel}"`. -/
def submodelBlock (gp : List Char → List (List Char)) (i : Nat) (sm : List Char) : List Char :=
  paramDefOf gp i sm ++ '\n' :: (yName (i + 1) ++ (" = ").toList ++ sm) ++ ['\n']

/-- `create_tes(num_inputs, submodels)`, with the sympy-backed
    `get_params` supplied as `gp`. -/
def create_tes (gp : List Char → List (List Char)) (num_inputs : Nat)
    (submodels : List (List Char)) : TemplateExpressionSpec :=
  { expressions := [['f']]
    variable_names := (List.range num_inputs).map (fun i => inputName (i + 1))
    parameters :=
      (submodels.map (fun sm => (gp sm).length)).enum.map (fun p => (pName (p.1 + 1), p.2))
    combine :=
      (submodels.enum.map (fun p => submodelBlock gp p.1 p.2)).flatten ++
        ("f(").toList ++
        joinSep ((", ").toList) ((List.range num_inputs).map (fun i => inputName (i + 1))) ++
        (", ").toList ++
        joinSep ((", ").toList) ((List.range submodels.length).map (fun j => yName (j + 1))) ++
        [')'] }

/-- A concrete submodel for witnesses: `"A*x1^n"`. -/
def smW : List Char := ("A*x1^n").toList

/-- A concrete stand-in for sympy's `get_params` on `smW`. -/
def gpW (sm : List Char) : List (List Char) :=
  if sm = smW then [['A'], ['n']] else []

/-! ## Theorems -/

/-! ### Digit and `natDigits` facts -/

theorem natDigits_of_le_nine (n : Nat) (h : n ≤ 9) : natDigits n = [digitChar n] := by
  interval_cases n <;> rfl

theorem isDig_digitChar (i : Nat) (h : i ≤ 9) : isDig (digitChar i) = true := by
  interval_cases i <;> decide

theorem dVal_digitChar (i : Nat) (h : i ≤ 9) : dVal (digitChar i) = i := by
  interval_cases i <;> decide

theorem digitChar_ne_sharp (i : Nat) (h : i ≤ 9) : digitChar i ≠ '#' := by
  interval_cases i <;> decide

theorem digitChar_ne_x (i : Nat) (h : i ≤ 9) : digitChar i ≠ 'x' := by
  interval_cases i <;> decide

theorem digitChar_ne_paren (i : Nat) (h : i ≤ 9) : digitChar i ≠ '(' := by
  interval_cases i <;> decide

theorem isDig_cases (d : Char) (h : isDig d = true) : d = digitChar (dVal d) ∧ dVal d ≤ 9 := by
  have hm : d ∈ digitList := by
    simpa [isDig] using h
  simp only [digitList, List.mem_cons, List.not_mem_nil, or_false] at hm
  rcases hm with h | h | h | h | h | h | h | h | h | h <;> subst h <;> exact ⟨rfl, by decide⟩

theorem ne_digitChar_of_not_isDig (d : Char) (i : Nat) (hi : i ≤ 9)
    (h : isDig d = false) : d ≠ digitChar i := by
  intro he
  rw [he, isDig_digitChar i hi] at h
  cases h

theorem isDig_ne_sharp (d : Char) (h : isDig d = true) : d ≠ '#' := by
  rcases isDig_cases d h with ⟨hd, h9⟩
  rw [hd]
  exact digitChar_ne_sharp _ h9

theorem digitsToNat_single (d : Char) : digitsToNat [d] = dVal d := by
  simp [digitsToNat]

theorem natDigits_chars (n : Nat) : ∀ c ∈ natDigits n, ∃ j, j ≤ 9 ∧ c = digitChar j := by
  unfold natDigits
  generalize hf : n + 1 = f
  have hfn : n < f := by omega
  clear hf
  induction f generalizing n with
  | zero => omega
  | succ f ih =>
    intro c hc
    unfold natDigitsF at hc
    by_cases h10 : n < 10
    · rw [if_pos h10] at hc
      simp only [List.mem_singleton] at hc
      exact ⟨n, by omega, hc⟩
    · rw [if_neg h10] at hc
      rcases List.mem_append.mp hc with hc | hc
      · exact ih (n / 10) (by omega) c hc
      · simp only [List.mem_singleton] at hc
        exact ⟨n % 10, by omega, hc⟩

/-! ### `pyReplace` equations -/

theorem pyR_skip (pat rep : List Char) :
    ∀ (k : Nat) (s : List Char), pyR pat rep s k = pyR pat rep (s.drop k) 0 := by
  intro k
  induction k with
  | zero => intro s; rfl
  | succ k ih =>
    intro s
    cases s with
    | nil => rfl
    | cons c s => simpa [pyR] using ih s

theorem pyReplace_nil (pat rep : List Char) : pyReplace [] pat rep = [] := by
  by_cases h : pat.isEmpty <;> simp [pyReplace, h, pyR]

theorem pyReplace_pos (s pat rep : List Char) (hne : pat ≠ [])
    (h : pat.isPrefixOf s = true) :
    pyReplace s pat rep = rep ++ pyReplace (s.drop pat.length) pat rep := by
  cases pat with
  | nil => exact absurd rfl hne
  | cons p ps =>
    cases s with
    | nil => simp [List.isPrefixOf] at h
    | cons c s =>
      have hemp : (p :: ps : List Char).isEmpty = false := rfl
      simp only [pyReplace, hemp, Bool.false_eq_true, if_false]
      rw [show pyR (p :: ps) rep (c :: s) 0 =
        if (p :: ps).isPrefixOf (c :: s) then
          rep ++ pyR (p :: ps) rep s ((p :: ps).length - 1)
        else c :: pyR (p :: ps) rep s 0 from rfl]
      rw [if_pos h, pyR_skip]
      rfl

theorem pyReplace_neg (c : Char) (s pat rep : List Char)
    (h : pat.isPrefixOf (c :: s) = false) :
    pyReplace (c :: s) pat rep = c :: pyReplace s pat rep := by
  cases pat with
  | nil => simp [List.isPrefixOf] at h
  | cons p ps =>
    have hemp : (p :: ps : List Char).isEmpty = false := rfl
    simp only [pyReplace, hemp, Bool.false_eq_true, if_false]
    rw [show pyR (p :: ps) rep (c :: s) 0 =
      if (p :: ps).isPrefixOf (c :: s) then
        rep ++ pyR (p :: ps) rep s ((p :: ps).length - 1)
      else c :: pyR (p :: ps) rep s 0 from rfl]
    rw [if_neg (by simp [h])]

theorem pyReplace_no_occur (s pat rep : List Char) (h : occursB pat s = false) :
    pyReplace s pat rep = s := by
  induction s with
  | nil => exact pyReplace_nil pat rep
  | cons c s ih =>
    have h2 : pat.isPrefixOf (c :: s) = false ∧ occursB pat s = false := by
      simpa [occursB, Bool.or_eq_false_iff] using h
    rw [pyReplace_neg c s pat rep h2.1, ih h2.2]

/-! ### Specialised equations for the two-character tokens `#c` -/

theorem pyReplace_tok_cons (a : Char) (t : List Char) (c : Char) (rep : List Char)
    (ha : a ≠ '#') :
    pyReplace (a :: t) ['#', c] rep = a :: pyReplace t ['#', c] rep := by
  apply pyReplace_neg
  simp [List.isPrefixOf, Ne.symm ha]

theorem pyReplace_tok_sharp_nil (c : Char) (rep : List Char) :
    pyReplace ['#'] ['#', c] rep = ['#'] := by
  rw [pyReplace_neg '#' [] ['#', c] rep (by simp [List.isPrefixOf]), pyReplace_nil]

theorem pyReplace_tok_sharp_cons (d : Char) (t : List Char) (c : Char) (rep : List Char) :
    pyReplace ('#' :: d :: t) ['#', c] rep =
      if d = c then rep ++ pyReplace t ['#', c] rep
      else '#' :: pyReplace (d :: t) ['#', c] rep := by
  by_cases h : d = c
  · subst h
    rw [if_pos rfl, pyReplace_pos ('#' :: d :: t) ['#', d] rep (by simp)
      (by simp [List.isPrefixOf])]
    rfl
  · rw [if_neg h]
    apply pyReplace_neg
    simp [List.isPrefixOf, Ne.symm h]

/-! ### `simulS` equations -/

theorem simulSS_skip (m : List (Char × List Char)) :
    ∀ (k : Nat) (s : List Char), simulSS m s k = simulSS m (s.drop k) 0 := by
  intro k
  induction k with
  | zero => intro s; rfl
  | succ k ih =>
    intro s
    cases s with
    | nil => rfl
    | cons c s => simpa [simulSS] using ih s

theorem simulS_nil (m : List (Char × List Char)) : simulS m [] = [] := rfl

theorem simulS_cons_ne (m : List (Char × List Char)) (c : Char) (s : List Char)
    (h : c ≠ '#') : simulS m (c :: s) = c :: simulS m s := by
  simp [simulS, simulSS, h]

theorem simulS_sharp_nil (m : List (Char × List Char)) : simulS m ['#'] = ['#'] := by
  simp [simulS, simulSS]

theorem simulS_sharp_some (m : List (Char × List Char)) (d : Char) (t rep : List Char)
    (h : List.lookup d m = some rep) :
    simulS m ('#' :: d :: t) = rep ++ simulS m t := by
  simp [simulS, simulSS, h]

theorem simulS_sharp_none (m : List (Char × List Char)) (d : Char) (t : List Char)
    (h : List.lookup d m = none) :
    simulS m ('#' :: d :: t) = '#' :: simulS m (d :: t) := by
  simp [simulS, simulSS, h]

theorem simulS_append_clean (m : List (Char × List Char)) (a b : List Char)
    (h : ∀ x ∈ a, x ≠ '#') : simulS m (a ++ b) = a ++ simulS m b := by
  induction a with
  | nil => rfl
  | cons c a ih =>
    rw [List.cons_append, simulS_cons_ne m c (a ++ b) (h c (by simp)),
      ih (fun x hx => h x (by simp [hx]))]
    rfl

/-! ### Lookup helpers -/

theorem lookup_cons_self {β : Type} (c : Char) (v : β) (m : List (Char × β)) :
    List.lookup c ((c, v) :: m) = some v := by
  simp [List.lookup]

theorem lookup_cons_ne {β : Type} (d c : Char) (v : β) (m : List (Char × β))
    (h : d ≠ c) : List.lookup d ((c, v) :: m) = List.lookup d m := by
  have hb : (d == c) = false := by simp [h]
  simp [List.lookup, hb]

theorem lookup_none_of_ne {β : Type} (d : Char) (m : List (Char × β))
    (h : ∀ q ∈ m, d ≠ q.1) : List.lookup d m = none := by
  induction m with
  | nil => rfl
  | cons p m ih =>
    obtain ⟨c, v⟩ := p
    rw [lookup_cons_ne d c v m (h (c, v) (by simp))]
    exact ih (fun q hq => h q (by simp [hq]))

theorem lookup_some_mem {β : Type} (d : Char) (m : List (Char × β)) (v : β)
    (h : List.lookup d m = some v) : ∃ w, (d, w) ∈ m := by
  induction m with
  | nil => simp [List.lookup] at h
  | cons p m ih =>
    obtain ⟨c, w⟩ := p
    by_cases hdc : d = c
    · exact ⟨w, by simp [hdc]⟩
    · rw [lookup_cons_ne d c w m hdc] at h
      obtain ⟨w', hw'⟩ := ih h
      exact ⟨w', by simp [hw']⟩

/-! ### The head of a replaced string -/

theorem pyReplace_head_cases (c : Char) (rep : List Char) (hrepne : rep ≠ []) :
    ∀ t : List Char, (pyReplace t ['#', c] rep).head? = none ∨
      (pyReplace t ['#', c] rep).head? = rep.head? ∨
      (pyReplace t ['#', c] rep).head? = t.head? := by
  intro t
  cases t with
  | nil => left; rw [pyReplace_nil]; rfl
  | cons a t' =>
    by_cases ha : a = '#'
    · subst ha
      cases t' with
      | nil =>
        right; right
        rw [pyReplace_tok_sharp_nil]
      | cons d t₂ =>
        rw [pyReplace_tok_sharp_cons]
        by_cases hd : d = c
        · rw [if_pos hd]
          cases rep with
          | nil => exact absurd rfl hrepne
          | cons r rs => right; left; rfl
        · rw [if_neg hd]
          right; right
          rfl
    · rw [pyReplace_tok_cons a t' c rep ha]
      right; right
      rfl


/-! ### Sequential elimination of one token equals simultaneous
    replacement with the extended map -/

theorem seq_cons_eq_simul (c : Char) (rep : List Char) (m : List (Char × List Char))
    (hrepne : rep ≠ []) (hrepsharp : ∀ x ∈ rep, x ≠ '#')
    (hheadm : ∀ q ∈ m, rep.head? ≠ some q.1)
    (hc : c ≠ '#') (hm : ∀ q ∈ m, q.1 ≠ '#') :
    ∀ e, simulS m (pyReplace e ['#', c] rep) = simulS ((c, rep) :: m) e := by
  suffices H : ∀ (N : Nat) (e : List Char), e.length ≤ N →
      simulS m (pyReplace e ['#', c] rep) = simulS ((c, rep) :: m) e by
    intro e; exact H e.length e le_rfl
  intro N
  induction N with
  | zero =>
    intro e he
    rw [List.length_eq_zero.mp (Nat.le_zero.mp he), pyReplace_nil]
    rfl
  | succ N ih =>
    intro e he
    cases e with
    | nil => rw [pyReplace_nil]; rfl
    | cons c₁ e' =>
      by_cases hc1 : c₁ = '#'
      · subst hc1
        cases e' with
        | nil =>
          rw [pyReplace_tok_sharp_nil, simulS_sharp_nil, simulS_sharp_nil]
        | cons d e₂ =>
          have hlen2 : e₂.length ≤ N := by simp at he; omega
          have hlen1 : (d :: e₂).length ≤ N := by simpa using he
          rw [pyReplace_tok_sharp_cons]
          by_cases hd : d = c
          · subst hd
            rw [if_pos rfl,
              simulS_append_clean m rep (pyReplace e₂ ['#', d] rep) hrepsharp,
              ih e₂ hlen2,
              simulS_sharp_some ((d, rep) :: m) d e₂ rep (lookup_cons_self d rep m)]
          · rw [if_neg hd]
            rcases hl : List.lookup d m with _ | r'
            · -- no entry for `d`: both scanners emit `'#'` and continue
              have htail : simulS m ('#' :: pyReplace (d :: e₂) ['#', c] rep) =
                  '#' :: simulS m (pyReplace (d :: e₂) ['#', c] rep) := by
                rcases hx : pyReplace (d :: e₂) ['#', c] rep with _ | ⟨x, X'⟩
                · rw [simulS_sharp_nil, simulS_nil]
                · have hlook : List.lookup x m = none := by
                    rcases pyReplace_head_cases c rep hrepne (d :: e₂) with h0 | h0 | h0 <;>
                      rw [hx] at h0
                    · cases h0
                    · apply lookup_none_of_ne
                      intro q hq hxq
                      exact hheadm q hq (by rw [← h0, hxq]; rfl)
                    · have hxd : x = d := by simpa using h0
                      rw [hxd]; exact hl
                  rw [simulS_sharp_none m x X' hlook]
              rw [htail, ih (d :: e₂) hlen1,
                simulS_sharp_none ((c, rep) :: m) d e₂
                  (by rw [lookup_cons_ne d c rep m hd]; exact hl)]
            · -- `d` has an entry: it is replaced in both pictures
              have hdsharp : d ≠ '#' := by
                obtain ⟨w, hw⟩ := lookup_some_mem d m r' hl
                exact hm (d, w) hw
              rw [pyReplace_tok_cons d e₂ c rep hdsharp,
                simulS_sharp_some m d (pyReplace e₂ ['#', c] rep) r' hl,
                ih e₂ hlen2,
                simulS_sharp_some ((c, rep) :: m) d e₂ r'
                  (by rw [lookup_cons_ne d c rep m hd]; exact hl)]
      · rw [pyReplace_tok_cons c₁ e' c rep hc1,
          simulS_cons_ne m c₁ (pyReplace e' ['#', c] rep) hc1,
          simulS_cons_ne ((c, rep) :: m) c₁ e' hc1,
          ih e' (by simpa using he)]

/-! ### Sequential equals simultaneous for a sane map -/

theorem simulS_nil_map : ∀ e : List Char, simulS [] e = e := by
  intro e
  induction e with
  | nil => rfl
  | cons c s ih =>
    by_cases hc : c = '#'
    · subst hc
      cases s with
      | nil => exact simulS_sharp_nil []
      | cons d s2 => rw [simulS_sharp_none [] d s2 rfl, ih]
    · rw [simulS_cons_ne [] c s hc, ih]

theorem seqS_eq_simulS (M : List (Char × List Char)) (hsane : saneMap M) :
    ∀ e, seqS e M = simulS M e := by
  induction M with
  | nil => intro e; rw [simulS_nil_map]; rfl
  | cons p m ih =>
    obtain ⟨c, rep⟩ := p
    have hp := hsane (c, rep) (by simp)
    intro e
    rw [show seqS e ((c, rep) :: m) = seqS (pyReplace e ['#', c] rep) m from rfl]
    rw [ih (fun q hq => by
      obtain ⟨h1, h2, h3, h4⟩ := hsane q (by simp [hq])
      exact ⟨h1, h2, h3, fun r hr => h4 r (by simp [hr])⟩)]
    exact seq_cons_eq_simul c rep m hp.2.1 hp.2.2.1
      (fun q hq => hp.2.2.2 q (by simp [hq]))
      hp.1
      (fun q hq => (hsane q (by simp [hq])).1)
      e

/-! ### The digit map -/

theorem digitMapFrom_mem (i : Nat) (pds : List (List Char)) :
    ∀ p ∈ digitMapFrom i pds, ∃ j pd, i ≤ j ∧ j < i + pds.length ∧
      pd ∈ pds ∧ p = (digitChar j, pd) := by
  induction pds generalizing i with
  | nil => intro p hp; cases hp
  | cons pd rest ih =>
    intro p hp
    rcases List.mem_cons.mp hp with hp | hp
    · exact ⟨i, pd, le_rfl, by simp, by simp, hp⟩
    · obtain ⟨j, pd', hj1, hj2, hpd', hp'⟩ := ih (i + 1) p hp
      refine ⟨j, pd', by omega, ?_, by simp [hpd'], hp'⟩
      simp only [List.length_cons]
      omega

theorem lookup_digitMapFrom_isDig (pds : List (List Char)) :
    ∀ (i : Nat) (d : Char), 1 ≤ i → i + pds.length ≤ 10 → isDig d = true →
    List.lookup d (digitMapFrom i pds) =
      if i ≤ dVal d ∧ dVal d < i + pds.length then some (pds.getD (dVal d - i) [])
      else none := by
  induction pds with
  | nil =>
    intro i d _ _ _
    rw [if_neg (by simp only [List.length_nil]; omega)]
    rfl
  | cons pd rest ih =>
    intro i d hi hlen d_dig
    have h9i : i ≤ 9 := by simp only [List.length_cons] at hlen; omega
    obtain ⟨hdc, hd9⟩ := isDig_cases d d_dig
    by_cases hdi : d = digitChar i
    · have hv : dVal d = i := by rw [hdi, dVal_digitChar i h9i]
      rw [show digitMapFrom i (pd :: rest) = (digitChar i, pd) :: digitMapFrom (i + 1) rest
          from rfl]
      rw [hdi, lookup_cons_self]
      rw [hdi] at hv
      rw [if_pos (by rw [hv]; simp only [List.length_cons]; omega)]
      rw [hv]
      simp
    · have hvne : dVal d ≠ i := fun hv => hdi (by rw [hdc, hv])
      rw [show digitMapFrom i (pd :: rest) = (digitChar i, pd) :: digitMapFrom (i + 1) rest
          from rfl]
      rw [lookup_cons_ne d (digitChar i) pd (digitMapFrom (i + 1) rest) hdi]
      rw [ih (i + 1) d (by omega) (by simp only [List.length_cons] at hlen ⊢; omega) d_dig]
      by_cases hrange : i + 1 ≤ dVal d ∧ dVal d < i + 1 + rest.length
      · rw [if_pos hrange, if_pos (by simp only [List.length_cons]; omega)]
        have hsub : dVal d - i = (dVal d - (i + 1)) + 1 := by omega
        rw [hsub]
        rfl
      · rw [if_neg hrange, if_neg (by simp only [List.length_cons]; omega)]

theorem lookup_digitMapFrom_not_isDig (pds : List (List Char)) :
    ∀ (i : Nat) (d : Char), i + pds.length ≤ 10 → isDig d = false →
    List.lookup d (digitMapFrom i pds) = none := by
  induction pds with
  | nil => intro i d _ _; rfl
  | cons pd rest ih =>
    intro i d hlen hd
    rw [show digitMapFrom i (pd :: rest) = (digitChar i, pd) :: digitMapFrom (i + 1) rest
        from rfl]
    rw [lookup_cons_ne d (digitChar i) pd _
      (ne_digitChar_of_not_isDig d i (by simp only [List.length_cons] at hlen; omega) hd)]
    exact ih (i + 1) d (by simp only [List.length_cons] at hlen ⊢; omega) hd

/-! ### The code's placeholder loop for at most nine placeholdees is
    sequential token replacement over the digit map -/

theorem substPlaceholdersAux_eq_seqS (pds : List (List Char)) :
    ∀ (i : Nat) (e : List Char), 1 ≤ i → i + pds.length ≤ 10 →
    substPlaceholdersAux e i pds = seqS e (digitMapFrom i pds) := by
  induction pds with
  | nil => intro i e _ _; rfl
  | cons pd rest ih =>
    intro i e hi hlen
    have htok : phTok i = ['#', digitChar i] := by
      rw [phTok, natDigits_of_le_nine i (by simp only [List.length_cons] at hlen; omega)]
    rw [show substPlaceholdersAux e i (pd :: rest) =
        substPlaceholdersAux (pyReplace e (phTok i) pd) (i + 1) rest from rfl]
    rw [htok, ih (i + 1) (pyReplace e ['#', digitChar i] pd) (by omega)
      (by simp only [List.length_cons] at hlen ⊢; omega)]
    rfl

/-! ### `intendedSubst` equations -/

theorem intendedS_skip (pds : List (List Char)) :
    ∀ (k : Nat) (s : List Char), intendedS pds s k = intendedS pds (s.drop k) 0 := by
  intro k
  induction k with
  | zero => intro s; rfl
  | succ k ih =>
    intro s
    cases s with
    | nil => rfl
    | cons c s => simpa [intendedS] using ih s

theorem intendedSubst_nil (pds : List (List Char)) : intendedSubst pds [] = [] := rfl

theorem intendedSubst_cons_ne (pds : List (List Char)) (c : Char) (s : List Char)
    (h : c ≠ '#') : intendedSubst pds (c :: s) = c :: intendedSubst pds s := by
  simp [intendedSubst, intendedS, h]

theorem intendedSubst_sharp_good (pds : List (List Char)) (s : List Char)
    (h : 1 ≤ digitsToNat (s.takeWhile isDig) ∧
      digitsToNat (s.takeWhile isDig) ≤ pds.length ∧ s.takeWhile isDig ≠ []) :
    intendedSubst pds ('#' :: s) =
      pds.getD (digitsToNat (s.takeWhile isDig) - 1) [] ++
        intendedSubst pds (s.drop (s.takeWhile isDig).length) := by
  rw [show intendedSubst pds ('#' :: s) =
    if ('#' : Char) = '#' then
      if 1 ≤ digitsToNat (s.takeWhile isDig) ∧
          digitsToNat (s.takeWhile isDig) ≤ pds.length ∧ s.takeWhile isDig ≠ [] then
        pds.getD (digitsToNat (s.takeWhile isDig) - 1) [] ++
          intendedS pds s (s.takeWhile isDig).length
      else '#' :: intendedS pds s 0
    else '#' :: intendedS pds s 0 from rfl]
  rw [if_pos rfl, if_pos h, intendedS_skip]
  rfl

theorem intendedSubst_sharp_bad (pds : List (List Char)) (s : List Char)
    (h : ¬(1 ≤ digitsToNat (s.takeWhile isDig) ∧
      digitsToNat (s.takeWhile isDig) ≤ pds.length ∧ s.takeWhile isDig ≠ [])) :
    intendedSubst pds ('#' :: s) = '#' :: intendedSubst pds s := by
  rw [show intendedSubst pds ('#' :: s) =
    if ('#' : Char) = '#' then
      if 1 ≤ digitsToNat (s.takeWhile isDig) ∧
          digitsToNat (s.takeWhile isDig) ≤ pds.length ∧ s.takeWhile isDig ≠ [] then
        pds.getD (digitsToNat (s.takeWhile isDig) - 1) [] ++
          intendedS pds s (s.takeWhile isDig).length
      else '#' :: intendedS pds s 0
    else '#' :: intendedS pds s 0 from rfl]
  rw [if_pos rfl, if_neg h]
  rfl

/-! ### `tokensOk` equations -/

theorem tokensOk_cons_ne (c : Char) (s : List Char) (h : c ≠ '#') :
    tokensOk (c :: s) = tokensOk s := by
  simp [tokensOk, tokensOkS, h]

theorem tokensOk_sharp_nil : tokensOk ['#'] = true := rfl

theorem tokensOk_sharp_not_dig (d : Char) (s2 : List Char) (h : isDig d = false) :
    tokensOk ('#' :: d :: s2) = tokensOk (d :: s2) := by
  simp [tokensOk, tokensOkS, h]

theorem tokensOk_sharp_dig_nil (d : Char) (h : isDig d = true) :
    tokensOk ['#', d] = true := by
  simp [tokensOk, tokensOkS, h]

theorem tokensOk_sharp_dig_dig (d e2 : Char) (r : List Char)
    (h : isDig d = true) (h2 : isDig e2 = true) :
    tokensOk ('#' :: d :: e2 :: r) = false := by
  simp [tokensOk, tokensOkS, h, h2]

theorem tokensOk_sharp_dig_not_dig (d e2 : Char) (r : List Char)
    (h : isDig d = true) (h2 : isDig e2 = false) :
    tokensOk ('#' :: d :: e2 :: r) = tokensOk (e2 :: r) := by
  simp [tokensOk, tokensOkS, h, h2]

/-! ### Simultaneous digit-map replacement implements the
    specification's reading on single-digit expressions -/

theorem simulS_digitMap_eq_intended (pds : List (List Char)) (hlen : pds.length ≤ 9) :
    ∀ e, tokensOk e = true → simulS (digitMapFrom 1 pds) e = intendedSubst pds e := by
  suffices H : ∀ (N : Nat) (e : List Char), e.length ≤ N → tokensOk e = true →
      simulS (digitMapFrom 1 pds) e = intendedSubst pds e by
    intro e; exact H e.length e le_rfl
  intro N
  induction N with
  | zero =>
    intro e he _
    rw [List.length_eq_zero.mp (Nat.le_zero.mp he)]
    rfl
  | succ N ih =>
    intro e he hok
    cases e with
    | nil => rfl
    | cons c s =>
      by_cases hc : c = '#'
      · subst hc
        cases s with
        | nil =>
          rw [simulS_sharp_nil, intendedSubst_sharp_bad pds [] (by simp), intendedSubst_nil]
        | cons d s2 =>
          by_cases hd : isDig d
          · -- a single-digit token `#d`
            obtain ⟨hdc, hd9⟩ := isDig_cases d hd
            have htw : (d :: s2).takeWhile isDig = [d] := by
              cases s2 with
              | nil => simp [List.takeWhile, hd]
              | cons e2 r =>
                have h2 : isDig e2 = false := by
                  by_contra h2
                  have := tokensOk_sharp_dig_dig d e2 r hd
                    (by revert h2; cases isDig e2 <;> simp)
                  rw [this] at hok
                  cases hok
                simp [List.takeWhile, hd, h2]
            have hval : digitsToNat ((d :: s2).takeWhile isDig) = dVal d := by
              rw [htw, digitsToNat_single]
            have hrec : tokensOk (d :: s2) = true ∧ simulS (digitMapFrom 1 pds) (d :: s2) =
                intendedSubst pds (d :: s2) := by
              have hok2 : tokensOk (d :: s2) = true := by
                cases s2 with
                | nil =>
                  rw [tokensOk_cons_ne d [] (isDig_ne_sharp d hd)]
                  rfl
                | cons e2 r =>
                  have h2 : isDig e2 = false := by
                    by_contra h2
                    have := tokensOk_sharp_dig_dig d e2 r hd
                      (by revert h2; cases isDig e2 <;> simp)
                    rw [this] at hok
                    cases hok
                  rw [tokensOk_cons_ne d (e2 :: r) (isDig_ne_sharp d hd)]
                  rw [tokensOk_sharp_dig_not_dig d e2 r hd h2] at hok
                  exact hok
              exact ⟨hok2, ih (d :: s2) (by simpa using he) hok2⟩
            by_cases hrange : 1 ≤ dVal d ∧ dVal d ≤ pds.length
            · -- in range: both replace the token
              have hlook : List.lookup d (digitMapFrom 1 pds) =
                  some (pds.getD (dVal d - 1) []) := by
                rw [lookup_digitMapFrom_isDig pds 1 d le_rfl (by omega) hd,
                  if_pos (by omega)]
              rw [simulS_sharp_some (digitMapFrom 1 pds) d s2 _ hlook]
              rw [intendedSubst_sharp_good pds (d :: s2)
                (by rw [hval, htw]; exact ⟨hrange.1, hrange.2, by simp⟩)]
              rw [hval, htw]
              have hs2 : tokensOk s2 = true := by
                cases s2 with
                | nil => rfl
                | cons e2 r =>
                  have h2 : isDig e2 = false := by
                    by_contra h2
                    have := tokensOk_sharp_dig_dig d e2 r hd
                      (by revert h2; cases isDig e2 <;> simp)
                    rw [this] at hok
                    cases hok
                  rw [tokensOk_sharp_dig_not_dig d e2 r hd h2] at hok
                  exact hok
              rw [ih s2 (by simp at he; omega) hs2]
              rfl
            · -- out of range: both leave the token in place
              have hlook : List.lookup d (digitMapFrom 1 pds) = none := by
                rw [lookup_digitMapFrom_isDig pds 1 d le_rfl (by omega) hd,
                  if_neg (by omega)]
              rw [simulS_sharp_none (digitMapFrom 1 pds) d s2 hlook]
              rw [intendedSubst_sharp_bad pds (d :: s2) (by rw [hval]; intro hcon; omega)]
              rw [hrec.2]
          · -- `#` not followed by a digit: a literal `#`
            have hfd : isDig d = false := by revert hd; cases isDig d <;> simp
            have hlook : List.lookup d (digitMapFrom 1 pds) = none :=
              lookup_digitMapFrom_not_isDig pds 1 d (by omega) hfd
            rw [simulS_sharp_none (digitMapFrom 1 pds) d s2 hlook]
            have htw : (d :: s2).takeWhile isDig = [] := by simp [List.takeWhile, hfd]
            rw [intendedSubst_sharp_bad pds (d :: s2) (by rw [htw]; simp)]
            rw [tokensOk_sharp_not_dig d s2 hfd] at hok
            rw [ih (d :: s2) (by simpa using he) hok]
      · rw [simulS_cons_ne (digitMapFrom 1 pds) c s hc, intendedSubst_cons_ne pds c s hc]
        rw [tokensOk_cons_ne c s hc] at hok
        rw [ih s (by simpa using he) hok]

/-! ### Sanity of the placeholdee lists built by `julia_to_latex` -/

theorem pdsOf_length (n : Nat) (el : List (List Char)) :
    (pdsOf n el).length = n + el.length := by
  simp [pdsOf]

theorem pdsOf_entry_sane (n : Nat) (el : List (List Char))
    (hel : ∀ x ∈ el, ∀ c ∈ x, c ≠ '#') :
    ∀ pd ∈ pdsOf n el, pd ≠ [] ∧ (∀ x ∈ pd, x ≠ '#') ∧
      ∀ j, j ≤ 9 → pd.head? ≠ some (digitChar j) := by
  intro pd hpd
  rcases List.mem_append.mp hpd with hpd | hpd
  · obtain ⟨i, _, hi⟩ := List.mem_map.mp hpd
    subst hi
    refine ⟨by simp [inputName], ?_, ?_⟩
    · intro x hx
      rcases List.mem_cons.mp hx with hx | hx
      · subst hx; decide
      · obtain ⟨j, hj9, hj⟩ := natDigits_chars (i + 1) x hx
        rw [hj]
        exact digitChar_ne_sharp j hj9
    · intro j hj9 hhead
      have : ('x' : Char) = digitChar j := by
        simpa [inputName] using hhead
      exact digitChar_ne_x j hj9 this.symm
  · obtain ⟨x, hx, hxe⟩ := List.mem_map.mp hpd
    subst hxe
    refine ⟨by simp [parenWrap], ?_, ?_⟩
    · intro y hy
      rcases List.mem_cons.mp hy with hy | hy
      · subst hy; decide
      · rcases List.mem_append.mp hy with hy | hy
        · exact hel x hx y hy
        · rcases List.mem_singleton.mp hy with rfl; decide
    · intro j hj9 hhead
      have : ('(' : Char) = digitChar j := by
        simpa [parenWrap] using hhead
      exact digitChar_ne_paren j hj9 this.symm

theorem saneMap_digitMapFrom (pds : List (List Char))
    (hpds : ∀ pd ∈ pds, pd ≠ [] ∧ (∀ x ∈ pd, x ≠ '#') ∧
      ∀ j, j ≤ 9 → pd.head? ≠ some (digitChar j))
    (hlen : pds.length ≤ 9) : saneMap (digitMapFrom 1 pds) := by
  intro p hp
  obtain ⟨j, pd, hj1, hj2, hpd, hpeq⟩ := digitMapFrom_mem 1 pds p hp
  subst hpeq
  obtain ⟨hne, hsharp, hhead⟩ := hpds pd hpd
  refine ⟨digitChar_ne_sharp j (by omega), hne, hsharp, ?_⟩
  intro q hq
  obtain ⟨j', pd', hj1', hj2', _, hq'⟩ := digitMapFrom_mem 1 pds q hq
  subst hq'
  exact hhead j' (by omega)

/-! ### The substituted full placeholder stage -/

theorem placeholderStage_eq_intended (e : List Char) (n : Nat) (el : List (List Char))
    (hlen : n + el.length ≤ 9) (hel : ∀ x ∈ el, ∀ c ∈ x, c ≠ '#')
    (hok : tokensOk e = true) :
    placeholderStage e n el = intendedSubst (pdsOf n el) e := by
  have hl : (pdsOf n el).length = n + el.length := pdsOf_length n el
  rw [placeholderStage, substPlaceholders,
    substPlaceholdersAux_eq_seqS (pdsOf n el) 1 e le_rfl (by omega),
    seqS_eq_simulS (digitMapFrom 1 (pdsOf n el))
      (saneMap_digitMapFrom (pdsOf n el) (pdsOf_entry_sane n el hel) (by omega)) e,
    simulS_digitMap_eq_intended (pdsOf n el) (by omega) e hok]

/-! ### Idempotence helpers -/

theorem substituteParams_fixpoint (s : List Char) (pairs : List (List Char × List Char))
    (h : ∀ p ∈ pairs, occursB p.1 s = false) : substituteParams s pairs = s := by
  induction pairs with
  | nil => rfl
  | cons p rest ih =>
    obtain ⟨nm, v⟩ := p
    rw [show substituteParams s ((nm, v) :: rest) =
      substituteParams (pyReplace s nm v) rest from rfl]
    rw [pyReplace_no_occur s nm v (h (nm, v) (by simp))]
    exact ih (fun q hq => h q (by simp [hq]))

theorem substPlaceholdersAux_fixpoint (pds : List (List Char)) :
    ∀ (i : Nat) (s : List Char),
    (∀ j, i ≤ j → j < i + pds.length → occursB (phTok j) s = false) →
    substPlaceholdersAux s i pds = s := by
  induction pds with
  | nil => intro i s _; rfl
  | cons pd rest ih =>
    intro i s h
    rw [show substPlaceholdersAux s i (pd :: rest) =
      substPlaceholdersAux (pyReplace s (phTok i) pd) (i + 1) rest from rfl]
    rw [pyReplace_no_occur s (phTok i) pd (h i le_rfl (by simp))]
    exact ih (i + 1) s (fun j hj1 hj2 => h j (by omega)
      (by simp only [List.length_cons]; omega))

theorem zip_eq_zip_take {α β : Type} :
    ∀ (names : List α) (values : List β),
    names.zip values = (names.take values.length).zip values := by
  intro names
  induction names with
  | nil => intro values; simp
  | cons nm names ih =>
    intro values
    cases values with
    | nil => rfl
    | cons v vs =>
      show (nm, v) :: names.zip vs = (nm, v) :: (names.take vs.length).zip vs
      rw [ih vs]

/-! ### Claim C1 -/

/-- Claim C1 (amended): placeholder substitution in `julia_to_latex`
    replaces each placeholder token `#i` with the `i`-th entry of the
    concatenated list `[x1..xn, substituted submodel expressions]`,
    provided the concatenated list has at most nine entries (so that no
    placeholder token is a textual prefix of another), the substituted
    submodel expressions contain no `#`, and every placeholder token in
    the solver expression is a single digit.  Without the nine-entry
    bound the sequential `str.replace` loop corrupts `#10` and beyond
    (see the counterexample). -/
theorem C1_placeholder_substitution (e : List Char) (n : Nat) (el : List (List Char))
    (hlen : n + el.length ≤ 9) (hel : ∀ x ∈ el, ∀ c ∈ x, c ≠ '#')
    (hok : tokensOk e = true) :
    placeholderStage e n el = intendedSubst (pdsOf n el) e :=
  placeholderStage_eq_intended e n el hlen hel hok

theorem C1_placeholder_substitution_witness :
    tokensOk (("(#1*#3)+#2").toList) = true ∧
    placeholderStage (("(#1*#3)+#2").toList) 2 [("2.0*x1").toList] =
      intendedSubst (pdsOf 2 [("2.0*x1").toList]) (("(#1*#3)+#2").toList) ∧
    placeholderStage (("(#1*#3)+#2").toList) 2 [("2.0*x1").toList] =
      ("(x1*(2.0*x1))+x2").toList :=
  ⟨by decide,
   C1_placeholder_substitution (("(#1*#3)+#2").toList) 2 [("2.0*x1").toList]
     (by decide) (by decide) (by decide),
   by decide⟩

/-- Claim C1, counterexample to the claim as stated: with ten entries
    (one input and nine submodels) the in-range placeholder `#10` is not
    replaced by the tenth entry; replacing `#1` first turns `#10` into
    `x10`, so the loop's output differs from the simultaneous map. -/
theorem C1_placeholder_substitution_counterexample :
    tokensInRange 10 (("#10").toList) = true ∧
    placeholderStage (("#10").toList) 1 (List.replicate 9 (("x1").toList)) =
      ("x10").toList ∧
    intendedSubst (pdsOf 1 (List.replicate 9 (("x1").toList))) (("#10").toList) =
      ("(x1)").toList ∧
    placeholderStage (("#10").toList) 1 (List.replicate 9 (("x1").toList)) ≠
      intendedSubst (pdsOf 1 (List.replicate 9 (("x1").toList))) (("#10").toList) :=
  ⟨by decide, by decide, by decide, by decide⟩

/-! ### Claim C2 -/

/-- Claim C2 (amended): with two declared inputs and one substituted
    sub-expression, `#3` maps to the third entry of the concatenated
    list (the parenthesised sub-expression), while the out-of-range
    `#4` is left in the output verbatim: substitution is a total
    string operation that raises no `PlaceholderRangeError`. -/
theorem C2_out_of_range_left_in_place :
    placeholderStage (("#3+#4").toList) 2 [("f0").toList] = ("(f0)+#4").toList :=
  by decide

/-- Claim C2, counterexample to the claim as stated: requesting the
    out-of-range placeholder `#4` does not fail; `julia_to_latex`'s
    replacement loop returns normally with the token `#4` untouched in
    the output. -/
theorem C2_out_of_range_counterexample :
    placeholderStage (("#4").toList) 2 [("f0").toList] = ("#4").toList ∧
    occursB (("#4").toList)
      (placeholderStage (("#4").toList) 2 [("f0").toList]) = true :=
  ⟨by decide, by decide⟩

/-! ### Claim C3 -/

/-- Claim C3 (amended): each substitution pass (parameter inlining and
    placeholder inlining) is idempotent provided none of its patterns
    occurs in the once-substituted output — which holds in particular
    when parameter names do not occur in the substituted numeric
    literals.  Order-independence, by contrast, fails in general (see
    the counterexample), because `str.replace` of one parameter name
    can destroy occurrences of another parameter name that contains
    it. -/
theorem C3_substitution_idempotent :
    (∀ (e : List Char) (pairs : List (List Char × List Char)),
      (∀ p ∈ pairs, occursB p.1 (substituteParams e pairs) = false) →
      substituteParams (substituteParams e pairs) pairs = substituteParams e pairs) ∧
    (∀ (e : List Char) (pds : List (List Char)),
      (∀ j, 1 ≤ j → j ≤ pds.length →
        occursB (phTok j) (substPlaceholders e pds) = false) →
      substPlaceholders (substPlaceholders e pds) pds = substPlaceholders e pds) := by
  constructor
  · intro e pairs h
    exact substituteParams_fixpoint (substituteParams e pairs) pairs h
  · intro e pds h
    exact substPlaceholdersAux_fixpoint pds 1 (substPlaceholders e pds)
      (fun j hj1 hj2 => h j hj1 (by omega))

theorem C3_substitution_idempotent_witness :
    occursB (("n").toList)
      (substituteParams (("n+1").toList) [((("n").toList), ("2.0").toList)]) = false ∧
    substituteParams
      (substituteParams (("n+1").toList) [((("n").toList), ("2.0").toList)])
      [((("n").toList), ("2.0").toList)] =
      substituteParams (("n+1").toList) [((("n").toList), ("2.0").toList)] ∧
    substPlaceholders (substPlaceholders (("#1").toList) [("y").toList]) [("y").toList] =
      substPlaceholders (("#1").toList) [("y").toList] :=
  ⟨by decide,
   C3_substitution_idempotent.1 (("n+1").toList) [((("n").toList), ("2.0").toList)]
     (by decide),
   C3_substitution_idempotent.2 (("#1").toList) [("y").toList]
     (by intro j hj1 hj2; simp only [List.length_cons, List.length_nil] at hj2
         interval_cases j; decide)⟩

/-- Claim C3, counterexample to the claim as stated: parameter inlining
    is order-dependent.  With parameters `n` and `nu` (as sympy's
    unordered `free_symbols` may deliver them in either order),
    substituting `n` first corrupts `nu`, and the two orders produce
    different expressions. -/
theorem C3_substitution_order_counterexample :
    substituteParams (("nu+n").toList)
      [((("n").toList), ("2.0").toList), ((("nu").toList), ("3.0").toList)] =
      ("2.0u+2.0").toList ∧
    substituteParams (("nu+n").toList)
      [((("nu").toList), ("3.0").toList), ((("n").toList), ("2.0").toList)] =
      ("3.0+2.0").toList ∧
    substituteParams (("nu+n").toList)
      [((("n").toList), ("2.0").toList), ((("nu").toList), ("3.0").toList)] ≠
      substituteParams (("nu+n").toList)
      [((("nu").toList), ("3.0").toList), ((("n").toList), ("2.0").toList)] :=
  ⟨by decide, by decide, by decide⟩

/-! ### Claim C4 -/

/-- Claim C4 (amended): parameter inlining in `julia_to_latex` silently
    substitutes only the parameters for which values are available:
    `zip(param_names, param_values)` truncates to the shorter list, so
    parameter names beyond the value vector's length are ignored
    without any `MissingParameterError`. -/
theorem C4_parameter_zip_truncation (e : List Char) (names values : List (List Char)) :
    substituteParamsZip e names values =
      substituteParamsZip e (names.take values.length) values := by
  show substituteParams e (names.zip values) =
    substituteParams e ((names.take values.length).zip values)
  rw [← zip_eq_zip_take]

/-- Claim C4, counterexample to the claim as stated: with parameter
    names `A, n` but a single value `2.0`, the loop substitutes `A` and
    silently leaves `n` in the expression; no error is raised. -/
theorem C4_parameter_zip_counterexample :
    substituteParamsZip (("A*x1^n").toList) [("A").toList, ("n").toList]
      [("2.0").toList] = ("2.0*x1^n").toList ∧
    occursB (("n").toList)
      (substituteParamsZip (("A*x1^n").toList) [("A").toList, ("n").toList]
        [("2.0").toList]) = true :=
  ⟨by decide, by decide⟩

/-! ### Claim C5 -/

/-- Claim C5: `round_sf` rounds to significant figures:
    `-68.05796486172522` (the literal of the spec's rendering example,
    exactly `-6805796486172522 * 10^-14`) rounds at 5 significant
    figures to `-68.058` (`-68058 * 10^-3`), and rounding a list
    applies the scalar rounding elementwise.  The rounding is applied
    only to the values inlined into the rendered expression string
    (`param_values = round_sf(param_values, 5)` in `julia_to_latex`);
    the fitted parameter vector itself is not modified. -/
theorem C5_round_sf :
    round_sf ⟨-6805796486172522, -14⟩ 5 = (⟨-68058, -3⟩ : DecNum) ∧
    round_sf_list [⟨-6805796486172522, -14⟩, ⟨1627686, -6⟩] 5 =
      ([⟨-68058, -3⟩, ⟨16277, -4⟩] : List DecNum) ∧
    ∀ (l : List DecNum) (sf : Nat), round_sf_list l sf = l.map (fun d => round_sf d sf) :=
  ⟨by decide, by decide, fun l sf => rfl⟩

/-! ### Claim C7: cycle detection in the spec-modelled resolver -/

theorem kahnAux_cycle (cyc : List String) (hne : cyc ≠ []) :
    ∀ (fuel : Nat) (remaining : List (String × List String)) (acc : List String),
    (∀ n ∈ cyc, ∃ p ∈ remaining, p.1 = n ∧ ∃ m ∈ cyc, m ∈ p.2) →
    ∃ l, kahnAux fuel remaining acc = TopoResult.error l ∧ ∀ n ∈ cyc, n ∈ l := by
  have names_mem : ∀ (remaining : List (String × List String)),
      (∀ n ∈ cyc, ∃ p ∈ remaining, p.1 = n ∧ ∃ m ∈ cyc, m ∈ p.2) →
      ∀ n ∈ cyc, n ∈ remaining.map Prod.fst := by
    intro remaining h n hn
    obtain ⟨p, hp, hp1, _⟩ := h n hn
    exact List.mem_map.mpr ⟨p, hp, hp1⟩
  intro fuel
  induction fuel with
  | zero =>
    intro remaining acc h
    exact ⟨remaining.map Prod.fst, rfl, names_mem remaining h⟩
  | succ fuel ih =>
    intro remaining acc h
    have hrem_ne : remaining.isEmpty = false := by
      obtain ⟨n, hn⟩ := List.exists_mem_of_ne_nil cyc hne
      obtain ⟨p, hp, _⟩ := h n hn
      cases remaining with
      | nil => cases hp
      | cons a l => rfl
    rw [show kahnAux (fuel + 1) remaining acc =
      (if remaining.isEmpty then TopoResult.ok acc
       else if (remaining.filter
          (fun e => removableB (remaining.map Prod.fst) e.2)).isEmpty then
        TopoResult.error (remaining.map Prod.fst)
       else kahnAux fuel
        (remaining.filter (fun e => !(removableB (remaining.map Prod.fst) e.2)))
        (acc ++ (remaining.filter
          (fun e => removableB (remaining.map Prod.fst) e.2)).map Prod.fst)) from rfl]
    rw [hrem_ne]
    simp only [Bool.false_eq_true, if_false]
    by_cases hstuck : (remaining.filter
        (fun e => removableB (remaining.map Prod.fst) e.2)).isEmpty
    · rw [if_pos hstuck]
      exact ⟨remaining.map Prod.fst, rfl, names_mem remaining h⟩
    · rw [if_neg hstuck]
      apply ih
      intro n hn
      obtain ⟨p, hp, hp1, m, hm, hmdep⟩ := h n hn
      refine ⟨p, ?_, hp1, m, hm, hmdep⟩
      rw [List.mem_filter]
      refine ⟨hp, ?_⟩
      have hmname : m ∈ remaining.map Prod.fst := names_mem remaining h m hm
      have : removableB (remaining.map Prod.fst) p.2 = false := by
        rw [removableB, List.all_eq_false]
        exact ⟨m, hmdep, by simp [hmname]⟩
      rw [this]
      rfl

/-- Claim C7 (spec-modelled): whenever the assignments of a symbol
    table contain a true cyclic definition — a non-empty set of names
    each of which is assigned and references another member of the set,
    as produced by any cycle `A -> B -> ... -> A` — `topo_order` fails,
    returning a `CyclicDependencyError` result whose member list
    contains every name of the cycle.  The result is a value, not a
    retried computation. -/
theorem C7_cycle_detection (table : List (String × List String)) (cyc : List String)
    (hne : cyc ≠ [])
    (hcyc : ∀ n ∈ cyc, ∃ p ∈ table, p.1 = n ∧ ∃ m ∈ cyc, m ∈ p.2) :
    ∃ l, topo_order table = TopoResult.error l ∧ ∀ n ∈ cyc, n ∈ l :=
  kahnAux_cycle cyc hne (table.length + 1) table [] hcyc

theorem C7_cycle_detection_witness :
    ∃ l, topo_order cycleTable = TopoResult.error l ∧ ∀ n ∈ ["a", "b"], n ∈ l :=
  C7_cycle_detection cycleTable ["a", "b"] (by decide) (by decide)

/-! ### Claim C8 -/

/-- Claim C8: `get_params` keeps exactly the free symbols of the parsed
    expression whose name does not start with `"x"`: a symbol is in its
    output precisely when sympy reports it as a free symbol and it does
    not begin with the letter `x`; every `x`-prefixed symbol is silently
    dropped (treated as an input), every other free symbol is kept as a
    fitted parameter. -/
theorem C8_get_params_filter (free_symbols : List (List Char)) (s : List Char) :
    s ∈ get_params free_symbols ↔
      s ∈ free_symbols ∧ (['x'].isPrefixOf s) = false := by
  rw [get_params, List.mem_filter]
  simp

/-! ### Claim C9 -/

theorem takeWhile_append_of_all {p : Char → Bool} (xs : List Char) (y : Char)
    (ys : List Char) (h1 : ∀ x ∈ xs, p x = true) (h2 : p y = false) :
    List.takeWhile p (xs ++ y :: ys) = xs := by
  induction xs with
  | nil => simp [List.takeWhile, h2]
  | cons a xs ih =>
    simp only [List.cons_append, List.takeWhile]
    rw [h1 a (by simp)]
    simp only [List.cons.injEq, true_and]
    exact ih (fun x hx => h1 x (by simp [hx]))

/-- Claim C9: `julia_to_latex` takes as the expression to render the
    first semicolon-separated statement of the whitespace-stripped
    input with exactly its first two characters removed.  For a
    single-character name (`"f = body"`) this yields the space-stripped
    body; for a two-character name (`"f1 = body"`) the first two
    characters only cover the name, so a stray `=` is left at the front
    of the extracted expression. -/
theorem C9_first_two_chars_dropped (c1 c2 : Char) (body rest : List Char)
    (hc1s : c1 ≠ ' ') (hc1c : c1 ≠ ';') (hc2s : c2 ≠ ' ') (hc2c : c2 ≠ ';')
    (hbody : ∀ x ∈ body, x ≠ ';') :
    extractExpression ([c1] ++ (" = ").toList ++ body ++ ';' :: rest) =
      removeSpaces body ∧
    extractExpression ([c1, c2] ++ (" = ").toList ++ body ++ ';' :: rest) =
      '=' :: removeSpaces body := by
  have hfil : ∀ pre : List Char, removeSpaces (pre ++ (" = ").toList ++ body ++ ';' :: rest) =
      removeSpaces pre ++ '=' :: (removeSpaces body ++ ';' :: removeSpaces rest) := by
    intro pre
    simp [removeSpaces, List.filter_append]
  have hbody' : ∀ x ∈ removeSpaces body, (x != ';') = true := by
    intro x hx
    have := hbody x (List.mem_of_mem_filter hx)
    simpa using this
  constructor
  · rw [extractExpression, hfil [c1]]
    rw [show removeSpaces [c1] = [c1] from by simp [removeSpaces, hc1s]]
    rw [show ([c1] ++ '=' :: (removeSpaces body ++ ';' :: removeSpaces rest)) =
      (c1 :: '=' :: removeSpaces body) ++ ';' :: removeSpaces rest from by simp]
    rw [takeWhile_append_of_all (c1 :: '=' :: removeSpaces body) ';' (removeSpaces rest)
      (by intro x hx
          rcases List.mem_cons.mp hx with hx | hx
          · subst hx; simpa using hc1c
          · rcases List.mem_cons.mp hx with hx | hx
            · subst hx; decide
            · exact hbody' x hx)
      (by decide)]
    rfl
  · rw [extractExpression, hfil [c1, c2]]
    rw [show removeSpaces [c1, c2] = [c1, c2] from by simp [removeSpaces, hc1s, hc2s]]
    rw [show ([c1, c2] ++ '=' :: (removeSpaces body ++ ';' :: removeSpaces rest)) =
      (c1 :: c2 :: '=' :: removeSpaces body) ++ ';' :: removeSpaces rest from by simp]
    rw [takeWhile_append_of_all (c1 :: c2 :: '=' :: removeSpaces body) ';' (removeSpaces rest)
      (by intro x hx
          rcases List.mem_cons.mp hx with hx | hx
          · subst hx; simpa using hc1c
          · rcases List.mem_cons.mp hx with hx | hx
            · subst hx; simpa using hc2c
            · rcases List.mem_cons.mp hx with hx | hx
              · subst hx; decide
              · exact hbody' x hx)
      (by decide)]
    rfl

theorem C9_first_two_chars_dropped_witness :
    extractExpression (("f = x1 + 1; p1 = [2.0]").toList) = ("x1+1").toList ∧
    extractExpression (("f1 = x1 + 1; p1 = [2.0]").toList) = ("=x1+1").toList := by
  have h := C9_first_two_chars_dropped 'f' '1' (("x1 + 1").toList)
    ((" p1 = [2.0]").toList) (by decide) (by decide) (by decide) (by decide) (by decide)
  constructor
  · rw [show ("f = x1 + 1; p1 = [2.0]").toList =
      (['f'] ++ (" = ").toList ++ ("x1 + 1").toList ++ ';' :: (" p1 = [2.0]").toList)
      from by decide]
    exact h.1.trans (by decide)
  · rw [show ("f1 = x1 + 1; p1 = [2.0]").toList =
      (['f', '1'] ++ (" = ").toList ++ ("x1 + 1").toList ++ ';' :: (" p1 = [2.0]").toList)
      from by decide]
    exact h.2.trans (by decide)

/-! ### Claim C6: equations for the `re.sub` scan -/

theorem rvS_skip (vars : List (List Char)) :
    ∀ (k : Nat) (s : List Char), rvS vars s k = rvS vars (s.drop k) 0 := by
  intro k
  induction k with
  | zero => intro s; rfl
  | succ k ih =>
    intro s
    cases s with
    | nil => rfl
    | cons c s => simpa [rvS] using ih s

theorem rv_nil (vars : List (List Char)) : replace_variables [] vars = [] := rfl

theorem rv_cons_ne (vars : List (List Char)) (c : Char) (s : List Char) (h : c ≠ 'x') :
    replace_variables (c :: s) vars = c :: replace_variables s vars := by
  simp [replace_variables, rvS, h]

theorem rv_cons_x_none (vars : List (List Char)) (s : List Char)
    (hm : tokMatch s = none) :
    replace_variables ('x' :: s) vars = 'x' :: replace_variables s vars := by
  simp [replace_variables, rvS, hm]

theorem rv_cons_x_some (vars : List (List Char)) (s ds : List Char) (skip : Nat)
    (hm : tokMatch s = some (ds, skip)) :
    replace_variables ('x' :: s) vars =
      (if digitsToNat ds < vars.length then vars.getD (digitsToNat ds) []
       else varTok ds) ++ replace_variables (s.drop skip) vars := by
  show rvS vars ('x' :: s) 0 = _
  rw [show rvS vars ('x' :: s) 0 =
    (if ('x' : Char) = 'x' then
      match tokMatch s with
      | some (ds, skip) =>
        (if digitsToNat ds < vars.length then vars.getD (digitsToNat ds) []
         else varTok ds) ++ rvS vars s skip
      | none => 'x' :: rvS vars s 0
     else 'x' :: rvS vars s 0) from rfl]
  rw [if_pos rfl, hm]
  rw [show (match some (ds, skip) with
      | some (ds, skip) =>
        (if digitsToNat ds < vars.length then vars.getD (digitsToNat ds) []
         else varTok ds) ++ rvS vars s skip
      | none => 'x' :: rvS vars s 0) =
    (if digitsToNat ds < vars.length then vars.getD (digitsToNat ds) []
     else varTok ds) ++ rvS vars s skip from rfl]
  rw [rvS_skip vars skip s]
  rfl

/-! ### `tokMatch` characterisation -/

theorem tokMatch_at_token (ds b : List Char) (hne : ds ≠ [])
    (hdig : ∀ c ∈ ds, isDig c = true) :
    tokMatch ('_' :: '\x7b' :: (ds ++ '\x7d' :: b)) = some (ds, ds.length + 3) := by
  have htw : (ds ++ '\x7d' :: b).takeWhile isDig = ds :=
    takeWhile_append_of_all ds '\x7d' b hdig (by decide)
  rw [show tokMatch ('_' :: '\x7b' :: (ds ++ '\x7d' :: b)) =
    (if ('_' : Char) = '_' ∧ ('\x7b' : Char) = '\x7b' then
      if ((ds ++ '\x7d' :: b).takeWhile isDig).isEmpty then none
      else if (((ds ++ '\x7d' :: b)).drop
          ((ds ++ '\x7d' :: b).takeWhile isDig).length).head? = some '\x7d' then
        some ((ds ++ '\x7d' :: b).takeWhile isDig,
          ((ds ++ '\x7d' :: b).takeWhile isDig).length + 3)
      else none
     else none) from rfl]
  rw [if_pos ⟨rfl, rfl⟩, htw]
  rw [if_neg (by cases ds with | nil => exact absurd rfl hne | cons c cs => simp)]
  rw [show (ds ++ '\x7d' :: b).drop ds.length = '\x7d' :: b from
    List.drop_left ds ('\x7d' :: b)]
  simp

theorem drop_takeWhile_length (p : Char → Bool) (l : List Char) :
    l.drop (l.takeWhile p).length = l.dropWhile p := by
  nth_rewrite 2 [← List.takeWhile_append_dropWhile (p := p) (l := l)]
  exact List.drop_left _ _

theorem tokMatch_some_inv (s ds : List Char) (skip : Nat)
    (hm : tokMatch s = some (ds, skip)) :
    ds ≠ [] ∧ (∀ c ∈ ds, isDig c = true) ∧ skip = ds.length + 3 ∧
      ∃ r, s = '_' :: '\x7b' :: (ds ++ '\x7d' :: r) ∧ s.drop skip = r := by
  match s with
  | [] => cases hm
  | [a] => cases hm
  | a :: b :: s2 =>
    rw [show tokMatch (a :: b :: s2) =
      (if a = '_' ∧ b = '\x7b' then
        if (s2.takeWhile isDig).isEmpty then none
        else if (s2.drop (s2.takeWhile isDig).length).head? = some '\x7d' then
          some (s2.takeWhile isDig, (s2.takeWhile isDig).length + 3)
        else none
       else none) from rfl] at hm
    by_cases hab : a = '_' ∧ b = '\x7b'
    swap
    · rw [if_neg hab] at hm; cases hm
    rw [if_pos hab] at hm
    by_cases hemp : (s2.takeWhile isDig).isEmpty
    · rw [if_pos hemp] at hm; cases hm
    rw [if_neg hemp] at hm
    by_cases hhead : (s2.drop (s2.takeWhile isDig).length).head? = some '\x7d'
    swap
    · rw [if_neg hhead] at hm; cases hm
    rw [if_pos hhead] at hm
    have hds : s2.takeWhile isDig = ds := congrArg Prod.fst (Option.some.inj hm)
    have hskip : skip = ds.length + 3 :=
      (congrArg Prod.snd (Option.some.inj hm)).symm.trans (by rw [hds])
    have hdig : ∀ c ∈ ds, isDig c = true := by
      intro c hc
      rw [← hds] at hc
      exact List.mem_takeWhile_imp hc
    have hne : ds ≠ [] := by
      rw [← hds]
      intro hcon
      rw [hcon] at hemp
      exact hemp rfl
    have hdw : s2.drop ds.length = s2.dropWhile isDig := by
      rw [← hds]
      exact drop_takeWhile_length isDig s2
    obtain ⟨r, hr⟩ : ∃ r, s2.drop ds.length = '\x7d' :: r := by
      rw [hds] at hhead
      rcases hx : s2.drop ds.length with _ | ⟨w, r⟩
      · rw [hx] at hhead; simp at hhead
      · rw [hx] at hhead
        have hw : w = '\x7d' := by simpa using hhead
        exact ⟨r, by rw [hw]⟩
    have hs2 : s2 = ds ++ '\x7d' :: r := by
      conv_lhs => rw [← List.takeWhile_append_dropWhile (p := isDig) (l := s2)]
      rw [hds, ← hdw, hr]

    refine ⟨hne, hdig, hskip, r, ?_, ?_⟩
    · rw [hab.1, hab.2, hs2]
    · rw [hskip, hs2]
      rw [show (a :: b :: (ds ++ '\x7d' :: r) : List Char).drop (ds.length + 3) =
        (ds ++ '\x7d' :: r).drop (ds.length + 1) from rfl]
      rw [show (ds ++ '\x7d' :: r : List Char) = (ds ++ ['\x7d']) ++ r from by simp]
      rw [show ds.length + 1 = (ds ++ ['\x7d']).length from by simp]
      exact List.drop_left _ _

theorem tokMatch_append_some (t u ds : List Char) (skip : Nat)
    (hm : tokMatch t = some (ds, skip)) :
    tokMatch (t ++ u) = some (ds, skip) ∧ skip ≤ t.length := by
  obtain ⟨hne, hdig, hskip, r, hshape, _⟩ := tokMatch_some_inv t ds skip hm
  constructor
  · rw [hshape]
    rw [show ('_' :: '\x7b' :: (ds ++ '\x7d' :: r) : List Char) ++ u =
      '_' :: '\x7b' :: (ds ++ '\x7d' :: (r ++ u)) from by simp]
    rw [tokMatch_at_token ds (r ++ u) hne hdig, hskip]
  · rw [hshape, hskip]
    simp

theorem tokMatch_cons₂ (a b : Char) (s2 : List Char) :
    tokMatch (a :: b :: s2) =
      (if a = '_' ∧ b = '\x7b' then
        if (s2.takeWhile isDig).isEmpty then none
        else if (s2.drop (s2.takeWhile isDig).length).head? = some '\x7d' then
          some (s2.takeWhile isDig, (s2.takeWhile isDig).length + 3)
        else none
       else none) := rfl

theorem takeWhile_length_le (p : Char → Bool) (l : List Char) :
    (l.takeWhile p).length ≤ l.length := by
  induction l with
  | nil => simp
  | cons a l ih =>
    rw [List.takeWhile_cons]
    by_cases h : p a
    · rw [if_pos h]
      simpa using ih
    · rw [if_neg h]
      simp

theorem takeWhile_eq_self_of_length (p : Char → Bool) (l : List Char)
    (h : (l.takeWhile p).length = l.length) : l.takeWhile p = l := by
  induction l with
  | nil => simp
  | cons a l ih =>
    rw [List.takeWhile_cons] at h ⊢
    by_cases hp : p a
    · rw [if_pos hp] at h ⊢
      simp only [List.length_cons] at h
      rw [ih (by omega)]
    · rw [if_neg hp] at h
      simp at h

theorem tokMatch_append_x_none (t u : List Char) (hm : tokMatch t = none) :
    tokMatch (t ++ 'x' :: u) = none := by
  match t with
  | [] =>
    cases u with
    | nil => rfl
    | cons u1 u' =>
      rw [List.nil_append, tokMatch_cons₂]
      rw [if_neg (by intro h; exact absurd h.1 (by decide))]
  | [a] =>
    rw [show ([a] ++ 'x' :: u : List Char) = a :: 'x' :: u from rfl, tokMatch_cons₂]
    rw [if_neg (by intro h; exact absurd h.2 (by decide))]
  | a :: b :: t2 =>
    have htwnil : List.takeWhile isDig ('x' :: u) = [] := rfl
    have htw : (t2 ++ 'x' :: u).takeWhile isDig = t2.takeWhile isDig := by
      rw [List.takeWhile_append, htwnil]
      by_cases hfull : (t2.takeWhile isDig).length = t2.length
      · rw [if_pos hfull, List.append_nil, takeWhile_eq_self_of_length isDig t2 hfull]
      · rw [if_neg hfull]
    rw [show ((a :: b :: t2) ++ 'x' :: u : List Char) = a :: b :: (t2 ++ 'x' :: u)
      from rfl, tokMatch_cons₂, htw]
    rw [tokMatch_cons₂] at hm
    by_cases hab : a = '_' ∧ b = '\x7b'
    swap
    · rw [if_neg hab]
    rw [if_pos hab] at hm ⊢
    by_cases hemp : (t2.takeWhile isDig).isEmpty
    · rw [if_pos hemp]
    · rw [if_neg hemp] at hm ⊢
      have hL : (t2.takeWhile isDig).length ≤ t2.length :=
        takeWhile_length_le isDig t2
      rw [List.drop_append_of_le_length hL]
      rcases hx : t2.drop (t2.takeWhile isDig).length with _ | ⟨w, r⟩
      · rw [List.nil_append]
        rw [if_neg (by simp)]
      · rw [hx] at hm
        by_cases hw : w = '\x7d'
        · rw [hw] at hm; simp at hm
        · rw [show (w :: r ++ 'x' :: u : List Char) = w :: (r ++ 'x' :: u) from rfl]
          rw [if_neg (by simp [hw])]

theorem drop_after_token (c1 c2 : Char) (ds r : List Char) :
    (c1 :: c2 :: (ds ++ '\x7d' :: r) : List Char).drop (ds.length + 3) = r := by
  rw [show (c1 :: c2 :: (ds ++ '\x7d' :: r) : List Char).drop (ds.length + 3) =
    (ds ++ '\x7d' :: r).drop (ds.length + 1) from rfl]
  rw [show (ds ++ '\x7d' :: r : List Char) = (ds ++ ['\x7d']) ++ r from by simp]
  rw [show ds.length + 1 = (ds ++ ['\x7d']).length from by simp]
  exact List.drop_left _ _

theorem rv_at_token (vars : List (List Char)) (ds b : List Char) (hne : ds ≠ [])
    (hdig : ∀ c ∈ ds, isDig c = true) :
    replace_variables (varTok ds ++ b) vars =
      (if digitsToNat ds < vars.length then vars.getD (digitsToNat ds) []
       else varTok ds) ++ replace_variables b vars := by
  rw [show varTok ds ++ b = 'x' :: ('_' :: '\x7b' :: (ds ++ '\x7d' :: b)) from by
    simp [varTok]]
  rw [rv_cons_x_some vars ('_' :: '\x7b' :: (ds ++ '\x7d' :: b)) ds (ds.length + 3)
    (tokMatch_at_token ds b hne hdig)]
  rw [drop_after_token '_' '\x7b' ds b]

/-- Claim C6: `replace_variables` substitutes a variable token
    `x_{ds}` with the `i`-th display name when the index `i` read from
    the digits `ds` satisfies `0 ≤ i < len(new_variables)`, and leaves
    the token exactly unchanged when the index is out of range; in
    either case the surrounding text is processed independently and no
    error is possible (the function is total).  Stated as a
    decomposition law for an arbitrary occurrence of the token. -/
theorem C6_replace_variables (vars : List (List Char)) (ds : List Char)
    (hne : ds ≠ []) (hdig : ∀ c ∈ ds, isDig c = true) :
    ∀ (a b : List Char),
    replace_variables (a ++ varTok ds ++ b) vars =
      replace_variables a vars ++
        ((if digitsToNat ds < vars.length then vars.getD (digitsToNat ds) []
          else varTok ds) ++ replace_variables b vars) := by
  suffices H : ∀ (N : Nat) (a b : List Char), a.length ≤ N →
      replace_variables (a ++ varTok ds ++ b) vars =
        replace_variables a vars ++
          ((if digitsToNat ds < vars.length then vars.getD (digitsToNat ds) []
            else varTok ds) ++ replace_variables b vars) by
    intro a b; exact H a.length a b le_rfl
  intro N
  induction N with
  | zero =>
    intro a b ha
    rw [List.length_eq_zero.mp (Nat.le_zero.mp ha), List.nil_append, rv_nil,
      List.nil_append, rv_at_token vars ds b hne hdig]
  | succ N ih =>
    intro a b ha
    cases a with
    | nil =>
      rw [List.nil_append, rv_nil, List.nil_append, rv_at_token vars ds b hne hdig]
    | cons c a' =>
      by_cases hc : c = 'x'
      · subst hc
        rcases hm : tokMatch a' with _ | ⟨ds0, k0⟩
        · have hnone : tokMatch (a' ++ (varTok ds ++ b)) = none := by
            rw [show varTok ds ++ b = 'x' :: ('_' :: '\x7b' :: (ds ++ '\x7d' :: b))
              from by simp [varTok]]
            exact tokMatch_append_x_none a' ('_' :: '\x7b' :: (ds ++ '\x7d' :: b)) hm
          rw [show ('x' :: a') ++ varTok ds ++ b = 'x' :: (a' ++ (varTok ds ++ b))
            from by simp]
          rw [rv_cons_x_none vars (a' ++ (varTok ds ++ b)) hnone]
          rw [show a' ++ (varTok ds ++ b) = a' ++ varTok ds ++ b from by simp]
          rw [ih a' b (by simpa using ha)]
          rw [rv_cons_x_none vars a' hm]
          rfl
        · obtain ⟨hm2, hk0⟩ := tokMatch_append_some a' (varTok ds ++ b) ds0 k0 hm
          rw [show ('x' :: a') ++ varTok ds ++ b = 'x' :: (a' ++ (varTok ds ++ b))
            from by simp]
          rw [rv_cons_x_some vars (a' ++ (varTok ds ++ b)) ds0 k0 hm2]
          rw [List.drop_append_of_le_length hk0]
          rw [show a'.drop k0 ++ (varTok ds ++ b) = a'.drop k0 ++ varTok ds ++ b
            from by simp]
          rw [ih (a'.drop k0) b (by
            have := List.length_drop k0 a'
            simp only [List.length_cons] at ha
            omega)]
          rw [rv_cons_x_some vars a' ds0 k0 hm]
          simp
      · rw [show (c :: a') ++ varTok ds ++ b = c :: (a' ++ varTok ds ++ b) from by simp]
        rw [rv_cons_ne vars c (a' ++ varTok ds ++ b) hc]
        rw [ih a' b (by simpa using ha)]
        rw [rv_cons_ne vars c a' hc]
        rfl

theorem C6_replace_variables_witness :
    replace_variables (("y+").toList ++ varTok ['0'] ++ ("*2").toList) [("s").toList] =
      ("y+s*2").toList ∧
    replace_variables (("y+").toList ++ varTok ['3'] ++ ("*2").toList) [("s").toList] =
      ("y+").toList ++ varTok ['3'] ++ ("*2").toList := by
  constructor
  · exact (C6_replace_variables [("s").toList] ['0'] (by decide) (by decide)
      (("y+").toList) (("*2").toList)).trans (by decide)
  · exact (C6_replace_variables [("s").toList] ['3'] (by decide) (by decide)
      (("y+").toList) (("*2").toList)).trans (by decide)

/-! ### Claim C10 -/

/-- Claim C10: `create_tes` declares exactly one parameter group per
    submodel — the `i`-th (0-based) submodel contributes the group
    named `p(i+1)` whose declared size is the number of parameters
    `get_params` finds in that submodel — and the combine string
    contains, for each submodel, the block that binds those parameter
    names, joined in order, to the 1-indexed references
    `p(i+1)[1], ..., p(i+1)[k]`. -/
theorem C10_create_tes (gp : List Char → List (List Char)) (n : Nat)
    (sms : List (List Char)) :
    (create_tes gp n sms).parameters.length = sms.length ∧
    (∀ i, i < sms.length → (create_tes gp n sms).parameters.getD i ([], 0) =
      (pName (i + 1), (gp (sms.getD i [])).length)) ∧
    (∀ i, i < sms.length →
      submodelBlock gp i (sms.getD i []) <:+: (create_tes gp n sms).combine) := by
  refine ⟨?_, ?_, ?_⟩
  · simp [create_tes, List.enum_length]
  · intro i hi
    have hi1 : i < ((sms.map (fun sm => (gp sm).length)).enum.map
        (fun p => (pName (p.1 + 1), p.2))).length := by
      simpa [List.enum_length] using hi
    have hi2 : i < (sms.map (fun sm => (gp sm).length)).enum.length := by
      simpa [List.enum_length] using hi
    have hi3 : i < (sms.map (fun sm => (gp sm).length)).length := by simpa using hi
    rw [show (create_tes gp n sms).parameters =
      (sms.map (fun sm => (gp sm).length)).enum.map
        (fun p => (pName (p.1 + 1), p.2)) from rfl]
    rw [List.getD_eq_getElem _ _ hi1, List.getElem_map, List.getElem_enum,
      List.getElem_map]
    rw [List.getD_eq_getElem _ _ hi]
  · intro i hi
    have hmem : submodelBlock gp i (sms.getD i []) ∈
        sms.enum.map (fun p => submodelBlock gp p.1 p.2) := by
      apply List.mem_map.mpr
      refine ⟨(i, sms.getD i []), ?_, rfl⟩
      have hi2 : i < sms.enum.length := by simpa [List.enum_length] using hi
      have : sms.enum[i] = (i, sms[i]) := List.getElem_enum sms i hi2
      rw [List.getD_eq_getElem _ _ hi, ← this]
      exact List.getElem_mem hi2
    have hflat : submodelBlock gp i (sms.getD i []) <:+:
        (sms.enum.map (fun p => submodelBlock gp p.1 p.2)).flatten :=
      List.infix_of_mem_flatten hmem
    have hpre : (sms.enum.map (fun p => submodelBlock gp p.1 p.2)).flatten <+:
        (create_tes gp n sms).combine := by
      rw [show (create_tes gp n sms).combine =
        (sms.enum.map (fun p => submodelBlock gp p.1 p.2)).flatten ++
          (("f(").toList ++
            (joinSep ((", ").toList)
              ((List.range n).map (fun i => inputName (i + 1))) ++
            ((", ").toList ++
              (joinSep ((", ").toList)
                ((List.range sms.length).map (fun j => yName (j + 1))) ++
              [')'])))) from by
        simp [create_tes, List.append_assoc]]
      exact List.prefix_append _ _
    exact hflat.trans hpre.isInfix

theorem C10_create_tes_witness :
    (create_tes gpW 1 [smW]).parameters = [(('p' :: ['1']), 2)] ∧
    submodelBlock gpW 0 ([smW].getD 0 []) <:+: (create_tes gpW 1 [smW]).combine :=
  ⟨by decide, (C10_create_tes gpW 1 [smW]).2.2 0 (by decide)⟩
